import Mathlib

/-!
Shallow embedding of the pandas-backend expression execution core
(`ibis/pandas/core.py`): the data-discovery graph walk `find_data`, the
scoped recursive evaluator `execute_with_scope`, and the top-level driver
`execute_without_scope`.

Modelling choices:
* The expression graph is an arena of `n` nodes addressed by `Fin n`; this
  captures the source's identity-keyed dictionaries (the `seen` set and the
  scope key on node identity).  An `Expr` coincides with the id of the node
  it wraps (`e.op()` is the identity in the arena).
* Scopes and ordered dictionaries are association lists whose update keeps
  the position of an existing key, mirroring `dict` / `OrderedDict`.
* The dispatch registries (`execute_node`, `execute_first`, `data_preload`)
  are external collaborators, modelled as fields of a `Registry` record.
  `execFirst` returning `none` models `NotImplementedError` (no fast path
  registered for the combination); `some r` is a registered fast path whose
  body may itself fail.
* Python exceptions are `Except Err`; the unbounded recursion of the source
  is made total with an explicit fuel parameter (fuel exhaustion is the
  distinguished `Err.fuelOut`, which the source would reach only by
  exceeding the interpreter stack).
* Evaluator invocations and preload invocations are recorded in a ghost
  event trace so that claims about "no evaluator is invoked" are statable.
-/

set_option autoImplicit false

/-- Concrete runtime values: scalars, strings, `None`, and data-type
descriptor objects (both are valid evaluator inputs in the source). -/
inductive Value where
  | int (i : Int)
  | str (s : String)
  | vnone
  | dtype (d : Nat)
  deriving DecidableEq, Repr

/-- The execution context tag (`ibis.pandas.context`): `Summarize` is the
default created at the top level. -/
inductive CtxTag where
  | summarize
  | passThrough
  deriving DecidableEq, Repr

/-- Errors of the core: `noData` is the `ValueError` raised by
`execute_without_scope` when no data sources are found; `dispatchNotFound`
and `evalFail` are failures raised from registered evaluators; `fuelOut` is
the fuel artifact of the embedding. -/
inductive Err where
  | noData
  | dispatchNotFound
  | evalFail
  | fuelOut
  deriving DecidableEq, Repr

/-- Ghost events: a `data_preload` invocation (with input and output
value), an `execute_first` invocation, and an `execute_node` invocation. -/
inductive Ev (n : Nat) where
  | preload (k : Fin n) (inp out : Value)
  | firstTry (op : Fin n)
  | nodeEval (op : Fin n)
  deriving DecidableEq, Repr

/-- One argument of a node: a sub-expression (`isinstance(arg, ir.Expr)`),
a non-expression valid input (scalar, string, `None`, `DataType`), or an
argument of a kind outside `_VALID_INPUT_TYPES` (dropped by the filter in
`execute_with_scope`). -/
inductive Arg (n : Nat) where
  | expr (i : Fin n)
  | val (v : Value)
  | other (o : Nat)
  deriving DecidableEq, Repr

/-- A data-source descriptor: `node.source.dictionary` resolves a name to a
concrete container value (per the collaborator contract, resolution of a
bound name succeeds, so the dictionary is total). -/
structure SourceD where
  dictionary : String → Value

/-- One node of the expression graph: its ordered arguments, its name, the
optional data-source annotation (`hasattr(node, 'source')`), the optional
literal value (`isinstance(node, ir.Literal)`), and the node ids returned
by `op.root_tables()`. -/
structure NodeData (n : Nat) where
  args : List (Arg n)
  name : String
  source : Option SourceD
  litValue : Option Value
  rootTables : List (Fin n)

/-- The arena of nodes.  Cycles are representable (an argument may point at
any node id), matching the possibility of cyclic object graphs. -/
structure Graph (n : Nat) where
  nodes : Fin n → NodeData n

/-- A key of the caller-supplied `params` mapping: either an expression
(`hasattr(k, 'op')` holds, unwrapped by `k.op()`) or already a raw node. -/
inductive PKey (n : Nat) where
  | pexpr (i : Fin n)
  | pnode (i : Fin n)
  deriving DecidableEq, Repr

/-- The external dispatch registries of `ibis.pandas.dispatch`:
`execute_node` (general per-operation evaluator, may fail),
`execute_first` (fast path; `none` models `NotImplementedError`, i.e. no
evaluator registered for this combination), and `data_preload`. -/
structure Registry (n : Nat) where
  execNode : Fin n → List Value → List (Fin n × Value) → CtxTag → Except Err Value
  execFirst : Fin n → List Value → List (Fin n × Value) → CtxTag → Option (Except Err Value)
  preload : Fin n → Value → List (Fin n × Value) → Value

/-- A Scope: an ordered mapping from node id to computed value. -/
abbrev Scope (n : Nat) := List (Fin n × Value)

/-- Dictionary read `d[k]`: the value at the first occurrence of `k`. -/
def alookup {n : Nat} : Scope n → Fin n → Option Value
  | [], _ => none
  | (k, v) :: rest, k2 => if k = k2 then some v else alookup rest k2

/-- Dictionary write `d[k] = v`: replace the value at an existing key in
place (keeping its position, as `dict` does), else append the new entry. -/
def aupdate {n : Nat} : Scope n → Fin n → Value → Scope n
  | [], k, v => [(k, v)]
  | (k2, v2) :: rest, k, v =>
      if k2 = k then (k, v) :: rest else (k2, v2) :: aupdate rest k v

/-- `toolz.merge(s, d, p, factory=OrderedDict)`: start from an empty
mapping and `update` with each mapping in turn, so later mappings win on
key collisions. -/
def mergeScopes {n : Nat} (s d p : Scope n) : Scope n :=
  (s ++ d ++ p).foldl (fun acc kv => aupdate acc kv.1 kv.2) []

/-- `{k.op() if hasattr(k, 'op') else k: v for k, v in params.items()}`:
normalize parameter keys to raw nodes, later duplicates winning. -/
def normKey {n : Nat} : PKey n → Fin n
  | .pexpr i => i
  | .pnode i => i

def normalizeParams {n : Nat} (p : List (PKey n × Value)) : Scope n :=
  p.foldl (fun acc kv => aupdate acc (normKey kv.1) kv.2) []

/-- `[scope[t] for t in op.root_tables()]`: all lookups, or `none` for the
`KeyError` that aborts the fast-path attempt. -/
def lookupAll {n : Nat} (s : Scope n) : List (Fin n) → Option (List Value)
  | [] => some []
  | t :: ts =>
    match alookup s t with
    | some v => (lookupAll s ts).map (fun vs => v :: vs)
    | none => none

/-- The sub-expression arguments of a node, in argument order.  The source
pushes `reversed(node.args)` onto an end-popping stack, which is the same
as prepending the expression arguments in order to a head-popping stack. -/
def kids {n : Nat} (g : Graph n) (i : Fin n) : List (Fin n) :=
  (g.nodes i).args.filterMap (fun a =>
    match a with
    | .expr j => some j
    | _ => none)

/-- The value `find_data` records for a node, if any: the resolved source
container `node.source.dictionary[node.name]` when the node has a `source`
attribute, else the literal's value when it is a `Literal`. -/
def dataValue {n : Nat} (g : Graph n) (i : Fin n) : Option Value :=
  match (g.nodes i).source with
  | some s => some (s.dictionary (g.nodes i).name)
  | none => (g.nodes i).litValue

/-- Result of the graph walk: the ordered data mapping of the source, plus
ghost instrumentation (the distinct nodes visited in order, and the total
number of stack pushes performed). -/
structure FDResult (n : Nat) where
  data : Scope n
  visits : List (Fin n)
  pushes : Nat
  deriving DecidableEq, Repr

/-- A fuel bound for the `find_data` loop: each iteration pops one entry,
and pushing happens only when an unseen node is seen for the first time. -/
def fdFuel {n : Nat} (g : Graph n) (stack : List (Fin n)) (seen : Finset (Fin n)) : Nat :=
  stack.length + Finset.sum (Finset.univ \ seen) (fun i => 1 + (kids g i).length)

/-- The explicit-stack loop of `find_data`, fuelled.  On each pop: skip if
seen, else mark seen, record the node's data value if it is a source-bound
or literal node, and push its expression arguments. -/
def fdLoop {n : Nat} (g : Graph n) :
    Nat → List (Fin n) → Finset (Fin n) → FDResult n → Option (FDResult n × Finset (Fin n))
  | _, [], seen, acc => some (acc, seen)
  | 0, _ :: _, _, _ => none
  | fuel + 1, e :: rest, seen, acc =>
    if e ∈ seen then
      fdLoop g fuel rest seen acc
    else
      let data2 :=
        match dataValue g e with
        | some v => acc.data ++ [(e, v)]
        | none => acc.data
      fdLoop g fuel (kids g e ++ rest) (insert e seen)
        ⟨data2, acc.visits ++ [e], acc.pushes + (kids g e).length⟩

/-- `find_data(expr)`: depth-first walk from the root with an explicit
stack and an identity-keyed seen set, collecting the bound/literal nodes
in discovery order.  The fuel `fdFuel` is proven sufficient below. -/
def find_data {n : Nat} (g : Graph n) (root : Fin n) : FDResult n :=
  match fdLoop g (fdFuel g [root] ∅) [root] ∅ ⟨[], [], 0⟩ with
  | some (r, _) => r
  | none => ⟨[], [], 0⟩

/-- `b ∈ kids a`: node `b` is an expression argument of node `a`. -/
def ChildOf {n : Nat} (g : Graph n) (a b : Fin n) : Prop :=
  b ∈ kids g a

/-- Reachability from the root through expression arguments. -/
def Reachable {n : Nat} (g : Graph n) (root i : Fin n) : Prop :=
  Relation.ReflTransGen (ChildOf g) root i

/-- The per-argument computation of `execute_with_scope`: arguments are
filtered to `_VALID_INPUT_TYPES`; expression arguments are evaluated
recursively in order (threading the scope reference), other valid inputs
pass through unchanged. -/
def evalArgs {n : Nat}
    (exec : Fin n → Scope n → Option CtxTag → List (Ev n) × Except Err (Value × Scope n))
    (ctxv : CtxTag) :
    List (Arg n) → Scope n → List (Ev n) × Except Err (List Value × Scope n)
  | [], s => ([], .ok ([], s))
  | a :: rest, s =>
    match a with
    | .other _ => evalArgs exec ctxv rest s
    | .val v =>
      let r := evalArgs exec ctxv rest s
      (r.1, r.2.map (fun x => (v :: x.1, x.2)))
    | .expr i =>
      match exec i s (some ctxv) with
      | (evs, .ok (v, s2)) =>
        let r := evalArgs exec ctxv rest s2
        (evs ++ r.1, r.2.map (fun x => (v :: x.1, x.2)))
      | (evs, .error e) => (evs, .error e)

/-- The general case of `execute_with_scope` (lines computing
`computed_args` by recursion and then dispatching to `execute_node`). -/
def generalStep {n : Nat}
    (exec : Fin n → Scope n → Option CtxTag → List (Ev n) × Except Err (Value × Scope n))
    (R : Registry n) (g : Graph n) (op : Fin n) (s : Scope n) (ctxv : CtxTag) :
    List (Ev n) × Except Err (Value × Scope n) :=
  match evalArgs exec ctxv (g.nodes op).args s with
  | (evs, .ok (cargs, s2)) =>
    (evs ++ [.nodeEval op], (R.execNode op cargs s2 ctxv).map (fun v => (v, s2)))
  | (evs, .error e) => (evs, .error e)

/-- `execute_with_scope(expr, scope, context)`: memo hit from the scope
first; then default the context; then the fast-path attempt (all root
tables present in scope, `execute_first` registered); else the general
per-argument recursion and `execute_node` dispatch.  Returns the value,
the scope object after the call, and the ghost event trace. -/
def executeWS {n : Nat} (R : Registry n) (g : Graph n) :
    Nat → Fin n → Scope n → Option CtxTag → List (Ev n) × Except Err (Value × Scope n)
  | fuel, e, scope, context =>
    match alookup scope e with
    | some v => ([], .ok (v, scope))
    | none =>
      match fuel with
      | 0 => ([], .error .fuelOut)
      | fuel2 + 1 =>
        let ctxv := context.getD .summarize
        match lookupAll scope (g.nodes e).rootTables with
        | some rootVals =>
          match R.execFirst e rootVals scope ctxv with
          | some r => ([.firstTry e], r.map (fun v => (v, scope)))
          | none =>
            let res := generalStep (executeWS R g fuel2) R g e scope ctxv
            (.firstTry e :: res.1, res.2)
        | none => generalStep (executeWS R g fuel2) R g e scope ctxv

/-- The same evaluator with no fast-path registry at all (step 2 of the
scoped evaluator removed): the comparison point stated by the spec for
fast-path fallthrough ("identical final output to a graph that had no
fast-path registered at all"). -/
def executeNoFast {n : Nat} (R : Registry n) (g : Graph n) :
    Nat → Fin n → Scope n → Option CtxTag → List (Ev n) × Except Err (Value × Scope n)
  | fuel, e, scope, context =>
    match alookup scope e with
    | some v => ([], .ok (v, scope))
    | none =>
      match fuel with
      | 0 => ([], .error .fuelOut)
      | fuel2 + 1 =>
        generalStep (executeNoFast R g fuel2) R g e scope (context.getD .summarize)

/-- `new_scope.update((node, data_preload(node, data, scope=new_scope)) for
node, data in new_scope.items())`: each entry is read with its merged
value, preloaded against the partially-updated scope, and written back in
place.  Also returns the list of preload invocations (key, input, output). -/
def preStep {n : Nat} (R : Registry n)
    (acc : Scope n × List (Fin n × Value × Value)) (kv : Fin n × Value) :
    Scope n × List (Fin n × Value × Value) :=
  let out := R.preload kv.1 kv.2 acc.1
  (aupdate acc.1 kv.1 out, acc.2 ++ [(kv.1, kv.2, out)])

def preloadAll {n : Nat} (R : Registry n) (s : Scope n) :
    Scope n × List (Fin n × Value × Value) :=
  s.foldl (preStep R) (s, [])

/-- The working scope assembled by `execute_without_scope`:
`toolz.merge(scope, data_scope, params)` after key normalization. -/
def mergedScope {n : Nat} (g : Graph n) (expr : Fin n)
    (params : List (PKey n × Value)) (scope0 : Scope n) : Scope n :=
  mergeScopes scope0 (find_data g expr).data (normalizeParams params)

/-- `execute_without_scope(expr, params, scope, context)`: discover bound
data, fail with `ValueError` if none, default the optional mappings, merge
them with increasing priority, preload every merged entry, and delegate to
`execute_with_scope` with a defaulted context.  Returns the final value and
the ghost trace (preload events then evaluation events). -/
def executeWithoutScope {n : Nat} (R : Registry n) (g : Graph n) (fuel : Nat)
    (expr : Fin n) (params : Option (List (PKey n × Value)))
    (scope : Option (Scope n)) (context : Option CtxTag) :
    List (Ev n) × Except Err Value :=
  let fd := find_data g expr
  if fd.data = [] then
    ([], .error .noData)
  else
    let scope0 := scope.getD []
    let params0 := params.getD []
    let merged := mergedScope g expr params0 scope0
    let pr := preloadAll R merged
    let res := executeWS R g fuel expr pr.1 (some (context.getD .summarize))
    (pr.2.map (fun e => Ev.preload e.1 e.2.1 e.2.2) ++ res.1,
     res.2.map (fun x => x.1))

/-! ### Concrete instances used as witnesses -/

/-- Sum a list of integer values (`none` if a non-integer appears). -/
def sumInts : List Value → Option Int
  | [] => some 0
  | .int i :: rest => (sumInts rest).map (fun j => i + j)
  | _ => none

/-- The example graph `Add(Literal(2), Add(BoundX, Literal(3)))`:
node 0 is the outer `Add`, node 1 is `Literal(2)`, node 2 the inner `Add`,
node 3 is `BoundX` (bound via its source dictionary to `5`), node 4 is
`Literal(3)`. -/
def gEx : Graph 5 where
  nodes i :=
    match i with
    | 0 => ⟨[.expr 1, .expr 2], "add0", none, none, []⟩
    | 1 => ⟨[], "lit2", none, some (.int 2), []⟩
    | 2 => ⟨[.expr 3, .expr 4], "add1", none, none, []⟩
    | 3 => ⟨[], "x", some ⟨fun s => if s = "x" then .int 5 else .vnone⟩, none, []⟩
    | 4 => ⟨[], "lit3", none, some (.int 3), []⟩

/-- A registry for `gEx`: `execute_node` on the two `Add` nodes sums its
integer arguments, `execute_first` has nothing registered, `data_preload`
is the identity. -/
def rEx : Registry 5 where
  execNode op cargs _ _ :=
    if op = 0 ∨ op = 2 then
      match sumInts cargs with
      | some s => .ok (.int s)
      | none => .error .evalFail
    else .error .dispatchNotFound
  execFirst _ _ _ _ := none
  preload _ v _ := v

/-- The scope that pre-seeds every leaf of `gEx` (exactly what the
discovery pass produces for it). -/
def scopeLeaves : Scope 5 := [(1, .int 2), (3, .int 5), (4, .int 3)]

/-- A one-node graph whose only node is neither a literal nor bound to a
source: `find_data` discovers nothing. -/
def gEmpty : Graph 1 where
  nodes _ := ⟨[], "bare", none, none, []⟩

/-- A trivial registry on one node. -/
def rEmpty : Registry 1 where
  execNode _ _ _ _ := .error .dispatchNotFound
  execFirst _ _ _ _ := none
  preload _ v _ := v

instance {ε α : Type} [DecidableEq ε] [DecidableEq α] : DecidableEq (Except ε α) :=
  fun a b =>
    match a, b with
    | .ok x, .ok y => decidable_of_iff (x = y) (by constructor <;> intro h <;> simp_all)
    | .error x, .error y => decidable_of_iff (x = y) (by constructor <;> intro h <;> simp_all)
    | .ok _, .error _ => .isFalse (by intro h; cases h)
    | .error _, .ok _ => .isFalse (by intro h; cases h)

/-! ### Association-list lemmas -/

theorem alookup_aupdate {n : Nat} (l : Scope n) (k : Fin n) (v : Value) (k2 : Fin n) :
    alookup (aupdate l k v) k2 = if k = k2 then some v else alookup l k2 := by
  induction l with
  | nil => simp [aupdate, alookup]
  | cons kv rest ih =>
    obtain ⟨k3, v3⟩ := kv
    by_cases h : k3 = k
    · subst h
      simp only [aupdate, if_pos rfl, alookup]
      by_cases h2 : k3 = k2 <;> simp [h2]
    · simp only [aupdate, if_neg h, alookup, ih]
      by_cases h2 : k = k2
      · subst h2
        simp [if_neg h]
      · simp [h2]

theorem keys_aupdate {n : Nat} (l : Scope n) (k : Fin n) (v : Value) :
    (aupdate l k v).map Prod.fst =
      if k ∈ l.map Prod.fst then l.map Prod.fst else l.map Prod.fst ++ [k] := by
  induction l with
  | nil => simp [aupdate]
  | cons kv rest ih =>
    obtain ⟨k3, v3⟩ := kv
    by_cases h : k3 = k
    · subst h
      simp [aupdate]
    · simp only [aupdate, if_neg h, List.map_cons, ih]
      by_cases h2 : k ∈ rest.map Prod.fst
      · simp [h2, Ne.symm h]
      · simp [h2, Ne.symm h]

theorem nodup_keys_aupdate {n : Nat} (l : Scope n) (k : Fin n) (v : Value)
    (h : (l.map Prod.fst).Nodup) : ((aupdate l k v).map Prod.fst).Nodup := by
  rw [keys_aupdate]
  by_cases h2 : k ∈ l.map Prod.fst
  · simpa [h2]
  · rw [if_neg h2]
    refine List.Nodup.append h (List.nodup_singleton k) ?_
    intro a ha hb
    simp only [List.mem_singleton] at hb
    exact h2 (hb ▸ ha)

theorem alookup_eq_none {n : Nat} (l : Scope n) (k : Fin n) :
    alookup l k = none ↔ k ∉ l.map Prod.fst := by
  induction l with
  | nil => simp [alookup]
  | cons kv rest ih =>
    obtain ⟨k3, v3⟩ := kv
    by_cases h : k3 = k
    · subst h
      simp [alookup]
    · simp [alookup, h, ih, Ne.symm h]

theorem alookup_append {n : Nat} (l1 l2 : Scope n) (k : Fin n) :
    alookup (l1 ++ l2) k = (alookup l1 k).or (alookup l2 k) := by
  induction l1 with
  | nil => simp [alookup]
  | cons kv rest ih =>
    obtain ⟨k3, v3⟩ := kv
    by_cases h : k3 = k
    · simp [alookup, h]
    · simp [alookup, h, ih]

theorem foldl_aupdate_lookup {n : Nat} (l : Scope n) (init : Scope n) (k : Fin n) :
    alookup (l.foldl (fun acc kv => aupdate acc kv.1 kv.2) init) k =
      (alookup l.reverse k).or (alookup init k) := by
  induction l generalizing init with
  | nil => simp [alookup]
  | cons kv rest ih =>
    obtain ⟨k3, v3⟩ := kv
    rw [List.foldl_cons, ih, List.reverse_cons, alookup_append, alookup_aupdate]
    by_cases h : k3 = k
    · simp [alookup, h, Option.or_assoc]
    · simp [alookup, h]

theorem alookup_reverse_of_nodup {n : Nat} (l : Scope n) (k : Fin n)
    (h : (l.map Prod.fst).Nodup) : alookup l.reverse k = alookup l k := by
  induction l with
  | nil => rfl
  | cons kv rest ih =>
    obtain ⟨k3, v3⟩ := kv
    simp only [List.map_cons, List.nodup_cons] at h
    rw [List.reverse_cons, alookup_append, ih h.2]
    by_cases h2 : k3 = k
    · subst h2
      have hnone : alookup rest k3 = none := (alookup_eq_none rest k3).2 h.1
      simp [hnone, alookup]
    · simp [alookup, h2]

theorem nodup_keys_foldl_aupdate {n : Nat} (l : Scope n) (init : Scope n)
    (h : (init.map Prod.fst).Nodup) :
    (((l.foldl (fun acc kv => aupdate acc kv.1 kv.2) init)).map Prod.fst).Nodup := by
  induction l generalizing init with
  | nil => exact h
  | cons kv rest ih => exact ih _ (nodup_keys_aupdate _ _ _ h)

theorem nodup_keys_mergeScopes {n : Nat} (s d p : Scope n) :
    ((mergeScopes s d p).map Prod.fst).Nodup :=
  nodup_keys_foldl_aupdate _ [] (by simp)

theorem nodup_keys_normalizeParams {n : Nat} (p : List (PKey n × Value)) :
    ((normalizeParams p).map Prod.fst).Nodup := by
  have h : ∀ (l : List (PKey n × Value)) (init : Scope n),
      (init.map Prod.fst).Nodup →
      ((l.foldl (fun acc kv => aupdate acc (normKey kv.1) kv.2) init).map Prod.fst).Nodup := by
    intro l
    induction l with
    | nil => intro init h; exact h
    | cons kv rest ih => intro init h; exact ih _ (nodup_keys_aupdate _ _ _ h)
  exact h p [] (by simp)

/-- The last-write-wins lookup law of `toolz.merge`: the merged scope binds
the highest-priority occurrence of a key. -/
theorem mergeScopes_lookup {n : Nat} (s d p : Scope n) (k : Fin n)
    (hs : (s.map Prod.fst).Nodup) (hd : (d.map Prod.fst).Nodup)
    (hp : (p.map Prod.fst).Nodup) :
    alookup (mergeScopes s d p) k =
      (alookup p k).or ((alookup d k).or (alookup s k)) := by
  unfold mergeScopes
  rw [foldl_aupdate_lookup]
  simp only [List.reverse_append]
  rw [alookup_append, alookup_append,
    alookup_reverse_of_nodup _ _ hs, alookup_reverse_of_nodup _ _ hd,
    alookup_reverse_of_nodup _ _ hp]
  simp [alookup]

/-! ### Graph-walk lemmas -/

theorem fdFuel_step {n : Nat} (g : Graph n) (e : Fin n) (rest : List (Fin n))
    (seen : Finset (Fin n)) (he : e ∉ seen) :
    fdFuel g (kids g e ++ rest) (insert e seen) + 2 = fdFuel g (e :: rest) seen := by
  unfold fdFuel
  have hmem : e ∈ Finset.univ \ seen := by simp [he]
  have hsum : Finset.sum ((Finset.univ \ seen).erase e) (fun i => 1 + (kids g i).length)
      + (1 + (kids g e).length) = Finset.sum (Finset.univ \ seen) (fun i => 1 + (kids g i).length) :=
    Finset.sum_erase_add _ _ hmem
  rw [Finset.sdiff_insert]
  simp only [List.length_append, List.length_cons]
  omega

theorem fdLoop_isSome {n : Nat} (g : Graph n) :
    ∀ (fuel : Nat) (stack : List (Fin n)) (seen : Finset (Fin n)) (acc : FDResult n),
      fdFuel g stack seen ≤ fuel → (fdLoop g fuel stack seen acc).isSome := by
  intro fuel
  induction fuel with
  | zero =>
    intro stack seen acc h
    cases stack with
    | nil => simp [fdLoop]
    | cons e rest => simp [fdFuel] at h
  | succ fuel ih =>
    intro stack seen acc h
    cases stack with
    | nil => simp [fdLoop]
    | cons e rest =>
      by_cases he : e ∈ seen
      · simp only [fdLoop, if_pos he]
        refine ih rest seen acc ?_
        simp only [fdFuel, List.length_cons] at h ⊢
        omega
      · simp only [fdLoop, if_neg he]
        refine ih _ _ _ ?_
        have := fdFuel_step g e rest seen he
        omega

theorem fdLoop_spec {n : Nat} (g : Graph n) :
    ∀ (fuel : Nat) (stack : List (Fin n)) (seen : Finset (Fin n)) (acc : FDResult n)
      (r : FDResult n) (s2 : Finset (Fin n)),
      fdLoop g fuel stack seen acc = some (r, s2) →
      ∃ l : List (Fin n),
        r.visits = acc.visits ++ l ∧
        r.data = acc.data ++ l.filterMap (fun i => (dataValue g i).map (fun v => (i, v))) ∧
        r.pushes = acc.pushes + (l.map (fun i => (kids g i).length)).sum ∧
        l.Nodup ∧ (∀ x ∈ l, x ∉ seen) ∧ s2 = seen ∪ l.toFinset := by
  intro fuel
  induction fuel with
  | zero =>
    intro stack seen acc r s2 h
    cases stack with
    | nil =>
      simp only [fdLoop, Option.some_inj, Prod.mk.injEq] at h
      exact ⟨[], by simp [← h.1, ← h.2]⟩
    | cons e rest => simp [fdLoop] at h
  | succ fuel ih =>
    intro stack seen acc r s2 h
    cases stack with
    | nil =>
      simp only [fdLoop, Option.some_inj, Prod.mk.injEq] at h
      exact ⟨[], by simp [← h.1, ← h.2]⟩
    | cons e rest =>
      by_cases he : e ∈ seen
      · rw [fdLoop, if_pos he] at h
        exact ih rest seen acc r s2 h
      · rw [fdLoop, if_neg he] at h
        obtain ⟨l, hv, hd, hp, hnd, hns, hs⟩ := ih _ _ _ r s2 h
        refine ⟨e :: l, ?_, ?_, ?_, ?_, ?_, ?_⟩
        · simp only at hv
          rw [hv, List.append_assoc]
          rfl
        · simp only at hd
          rw [hd, List.filterMap_cons]
          cases hdv : dataValue g e <;> simp [hdv, List.append_assoc]
        · simp only at hp
          rw [hp, List.map_cons, List.sum_cons]
          omega
        · refine List.nodup_cons.2 ⟨?_, hnd⟩
          intro hmem
          exact hns e hmem (Finset.mem_insert_self e seen)
        · intro x hx
          rcases List.mem_cons.1 hx with h1 | h1
          · exact h1 ▸ he
          · intro hxs
            exact hns x h1 (Finset.mem_insert_of_mem hxs)
        · rw [hs]
          ext x
          simp only [Finset.mem_union, Finset.mem_insert, List.toFinset_cons, List.mem_toFinset]
          constructor
          · rintro (⟨h1 | h1⟩ | h1)
            · exact Or.inr (Or.inl h1)
            · exact Or.inl h1
            · exact Or.inr (Or.inr (by simpa using h1))
          · rintro (h1 | h1 | h1)
            · exact Or.inl (Or.inr h1)
            · exact Or.inl (Or.inl h1)
            · exact Or.inr (by simpa using h1)

theorem fdLoop_closure {n : Nat} (g : Graph n) :
    ∀ (fuel : Nat) (stack : List (Fin n)) (seen : Finset (Fin n)) (acc : FDResult n)
      (r : FDResult n) (s2 : Finset (Fin n)),
      fdLoop g fuel stack seen acc = some (r, s2) →
      (∀ j ∈ seen, ∀ c ∈ kids g j, c ∈ seen ∨ c ∈ stack) →
      (∀ x ∈ stack, x ∈ s2) ∧ seen ⊆ s2 ∧ (∀ j ∈ s2, ∀ c ∈ kids g j, c ∈ s2) := by
  intro fuel
  induction fuel with
  | zero =>
    intro stack seen acc r s2 h hinv
    cases stack with
    | nil =>
      simp only [fdLoop, Option.some_inj, Prod.mk.injEq] at h
      obtain ⟨h1a, h1b⟩ := h
      subst h1a
      subst h1b
      refine ⟨by simp, fun x hx => hx, ?_⟩
      intro j hj c hc
      rcases hinv j hj c hc with h1 | h1
      · exact h1
      · simp at h1
    | cons e rest => simp [fdLoop] at h
  | succ fuel ih =>
    intro stack seen acc r s2 h hinv
    cases stack with
    | nil =>
      simp only [fdLoop, Option.some_inj, Prod.mk.injEq] at h
      obtain ⟨h1a, h1b⟩ := h
      subst h1a
      subst h1b
      refine ⟨by simp, fun x hx => hx, ?_⟩
      intro j hj c hc
      rcases hinv j hj c hc with h1 | h1
      · exact h1
      · simp at h1
    | cons e rest =>
      by_cases he : e ∈ seen
      · rw [fdLoop, if_pos he] at h
        have hinv2 : ∀ j ∈ seen, ∀ c ∈ kids g j, c ∈ seen ∨ c ∈ rest := by
          intro j hj c hc
          rcases hinv j hj c hc with h1 | h1
          · exact Or.inl h1
          · rcases List.mem_cons.1 h1 with h2 | h2
            · exact Or.inl (h2 ▸ he)
            · exact Or.inr h2
        obtain ⟨hst, hsub, hcl⟩ := ih rest seen acc r s2 h hinv2
        refine ⟨?_, hsub, hcl⟩
        intro x hx
        rcases List.mem_cons.1 hx with h1 | h1
        · exact hsub (h1 ▸ he)
        · exact hst x h1
      · rw [fdLoop, if_neg he] at h
        have hinv2 : ∀ j ∈ insert e seen, ∀ c ∈ kids g j, c ∈ insert e seen ∨ c ∈ kids g e ++ rest := by
          intro j hj c hc
          rcases Finset.mem_insert.1 hj with h1 | h1
          · subst h1
            exact Or.inr (List.mem_append_left _ hc)
          · rcases hinv j h1 c hc with h2 | h2
            · exact Or.inl (Finset.mem_insert_of_mem h2)
            · rcases List.mem_cons.1 h2 with h3 | h3
              · exact Or.inl (h3 ▸ Finset.mem_insert_self e seen)
              · exact Or.inr (List.mem_append_right _ h3)
        obtain ⟨hst, hsub, hcl⟩ := ih _ _ _ r s2 h hinv2
        refine ⟨?_, fun x hx => hsub (Finset.mem_insert_of_mem hx), hcl⟩
        intro x hx
        rcases List.mem_cons.1 hx with h1 | h1
        · exact hsub (h1 ▸ Finset.mem_insert_self e seen)
        · exact hst x (List.mem_append_right _ h1)

theorem fdLoop_reach {n : Nat} (g : Graph n) (root : Fin n) :
    ∀ (fuel : Nat) (stack : List (Fin n)) (seen : Finset (Fin n)) (acc : FDResult n)
      (r : FDResult n) (s2 : Finset (Fin n)),
      fdLoop g fuel stack seen acc = some (r, s2) →
      (∀ x ∈ stack, Reachable g root x) →
      (∀ x ∈ seen, Reachable g root x) →
      ∀ x ∈ s2, Reachable g root x := by
  intro fuel
  induction fuel with
  | zero =>
    intro stack seen acc r s2 h hst hsn
    cases stack with
    | nil =>
      simp only [fdLoop, Option.some_inj, Prod.mk.injEq] at h
      exact h.2 ▸ hsn
    | cons e rest => simp [fdLoop] at h
  | succ fuel ih =>
    intro stack seen acc r s2 h hst hsn
    cases stack with
    | nil =>
      simp only [fdLoop, Option.some_inj, Prod.mk.injEq] at h
      exact h.2 ▸ hsn
    | cons e rest =>
      by_cases he : e ∈ seen
      · rw [fdLoop, if_pos he] at h
        exact ih rest seen acc r s2 h (fun x hx => hst x (List.mem_cons_of_mem e hx)) hsn
      · rw [fdLoop, if_neg he] at h
        have hre : Reachable g root e := hst e (List.mem_cons_self e rest)
        refine ih _ _ _ r s2 h ?_ ?_
        · intro x hx
          rcases List.mem_append.1 hx with h1 | h1
          · exact Relation.ReflTransGen.tail hre h1
          · exact hst x (List.mem_cons_of_mem e h1)
        · intro x hx
          rcases Finset.mem_insert.1 hx with h1 | h1
          · exact h1 ▸ hre
          · exact hsn x h1

theorem find_data_run {n : Nat} (g : Graph n) (root : Fin n) :
    ∃ s2, fdLoop g (fdFuel g [root] ∅) [root] ∅ ⟨[], [], 0⟩ = some (find_data g root, s2) := by
  have h := fdLoop_isSome g (fdFuel g [root] ∅) [root] ∅ ⟨[], [], 0⟩ (le_refl _)
  cases heq : fdLoop g (fdFuel g [root] ∅) [root] ∅ ⟨[], [], 0⟩ with
  | none => rw [heq] at h; simp at h
  | some rs =>
    obtain ⟨r, s2⟩ := rs
    refine ⟨s2, ?_⟩
    simp only [find_data, heq]

/-- Full characterization of `find_data`: the visits are the reachable
nodes, each exactly once; the data mapping is the visit list restricted to
source-bound/literal nodes with their resolved values; the push count is
the sum of the expression-argument counts of the visited nodes. -/
theorem find_data_spec {n : Nat} (g : Graph n) (root : Fin n) :
    (find_data g root).visits.Nodup ∧
    (∀ i, i ∈ (find_data g root).visits ↔ Reachable g root i) ∧
    (find_data g root).data =
      (find_data g root).visits.filterMap (fun i => (dataValue g i).map (fun v => (i, v))) ∧
    (find_data g root).pushes =
      ((find_data g root).visits.map (fun i => (kids g i).length)).sum := by
  obtain ⟨s2, hrun⟩ := find_data_run g root
  obtain ⟨l, hv, hd, hp, hnd, _, hs⟩ := fdLoop_spec g _ _ _ _ _ _ hrun
  have hvl : (find_data g root).visits = l := by simpa using hv
  have hsl : s2 = l.toFinset := by
    rw [hs]
    ext x
    simp
  have hreach : ∀ i, i ∈ l ↔ Reachable g root i := by
    intro i
    constructor
    · intro hi
      refine fdLoop_reach g root _ _ _ _ _ _ hrun ?_ ?_ i ?_
      · intro x hx
        simp only [List.mem_singleton] at hx
        exact hx ▸ Relation.ReflTransGen.refl
      · intro x hx
        simp at hx
      · rw [hsl]
        exact List.mem_toFinset.2 hi
    · intro hi
      obtain ⟨hst, _, hcl⟩ := fdLoop_closure g _ _ _ _ _ _ hrun (by intro j hj; simp at hj)
      have hroot : root ∈ s2 := hst root (List.mem_singleton.2 rfl)
      have : i ∈ s2 := by
        induction hi with
        | refl => exact hroot
        | tail _ hbc ih => exact hcl _ ih _ hbc
      rw [hsl] at this
      exact List.mem_toFinset.1 this
  refine ⟨hvl ▸ hnd, ?_, ?_, ?_⟩
  · intro i
    rw [hvl]
    exact hreach i
  · rw [hvl]
    simpa using hd
  · rw [hvl]
    simpa using hp

/-- Keys of the filterMap pattern used by the data mapping stay inside the
visited list. -/
theorem keys_dataFM_subset {n : Nat} (g : Graph n) (l : List (Fin n)) :
    ∀ x ∈ (l.filterMap (fun i => (dataValue g i).map (fun v => (i, v)))).map Prod.fst, x ∈ l := by
  intro x hx
  simp only [List.mem_map, List.mem_filterMap] at hx
  obtain ⟨⟨k, v⟩, ⟨a, ha, hfa⟩, hk⟩ := hx
  cases hdv : dataValue g a <;> rw [hdv] at hfa <;> simp at hfa
  obtain ⟨h1, _⟩ := hfa
  subst hk
  simp only at h1 ⊢
  exact h1 ▸ ha

theorem nodup_keys_dataFM {n : Nat} (g : Graph n) (l : List (Fin n)) (h : l.Nodup) :
    ((l.filterMap (fun i => (dataValue g i).map (fun v => (i, v)))).map Prod.fst).Nodup := by
  induction l with
  | nil => simp
  | cons a rest ih =>
    rw [List.filterMap_cons]
    obtain ⟨ha, hrest⟩ := List.nodup_cons.1 h
    cases hdv : dataValue g a with
    | none => exact ih hrest
    | some v =>
      simp only [Option.map_some', List.map_cons]
      refine List.nodup_cons.2 ⟨?_, ih hrest⟩
      intro hmem
      exact ha (keys_dataFM_subset g rest a hmem)

theorem nodup_keys_find_data {n : Nat} (g : Graph n) (root : Fin n) :
    ((find_data g root).data.map Prod.fst).Nodup := by
  obtain ⟨hnd, _, hd, _⟩ := find_data_spec g root
  rw [hd]
  exact nodup_keys_dataFM g _ hnd

theorem mem_find_data {n : Nat} (g : Graph n) (root : Fin n) (i : Fin n) (v : Value) :
    (i, v) ∈ (find_data g root).data ↔ Reachable g root i ∧ dataValue g i = some v := by
  obtain ⟨_, hvis, hd, _⟩ := find_data_spec g root
  rw [hd]
  simp only [List.mem_filterMap]
  constructor
  · rintro ⟨a, ha, hfa⟩
    cases hdv : dataValue g a <;> rw [hdv] at hfa <;> simp at hfa
    obtain ⟨h1, h2⟩ := hfa
    subst h1
    exact ⟨(hvis a).1 ha, by rw [hdv, h2]⟩
  · rintro ⟨hr, hdv⟩
    exact ⟨i, (hvis i).2 hr, by rw [hdv]; rfl⟩

/-! ### Preload lemmas -/

theorem aupdate_append_not_mem {n : Nat} (l1 l2 : Scope n) (k : Fin n) (v : Value)
    (h : k ∉ l1.map Prod.fst) : aupdate (l1 ++ l2) k v = l1 ++ aupdate l2 k v := by
  induction l1 with
  | nil => rfl
  | cons kv rest ih =>
    obtain ⟨k3, v3⟩ := kv
    simp only [List.map_cons, List.mem_cons, not_or] at h
    simp only [List.cons_append, aupdate, if_neg (Ne.symm h.1)]
    simp only [List.append_eq]
    rw [ih h.2]

theorem preload_go_inputs {n : Nat} (R : Registry n) :
    ∀ (todo : Scope n) (cur : Scope n) (evs : List (Fin n × Value × Value)),
      ((todo.foldl (preStep R) (cur, evs)).2).map (fun e => (e.1, e.2.1)) =
        evs.map (fun e => (e.1, e.2.1)) ++ todo := by
  intro todo
  induction todo with
  | nil => intro cur evs; simp
  | cons kv rest ih =>
    intro cur evs
    obtain ⟨k, v⟩ := kv
    rw [List.foldl_cons]
    show ((rest.foldl (preStep R) (preStep R (cur, evs) (k, v))).2).map _ = _
    rw [preStep]
    simp only []
    rw [ih]
    simp

theorem preload_go_scope {n : Nat} (R : Registry n) :
    ∀ (todo : Scope n) (evs : List (Fin n × Value × Value)),
      (((evs.map (fun e => (e.1, e.2.2)) ++ todo).map Prod.fst).Nodup) →
      (todo.foldl (preStep R) (evs.map (fun e => (e.1, e.2.2)) ++ todo, evs)).1 =
        ((todo.foldl (preStep R) (evs.map (fun e => (e.1, e.2.2)) ++ todo, evs)).2).map
          (fun e => (e.1, e.2.2)) := by
  intro todo
  induction todo with
  | nil =>
    intro evs _
    simp
  | cons kv rest ih =>
    intro evs hnd
    obtain ⟨k, v⟩ := kv
    rw [List.foldl_cons]
    have hknotin : k ∉ (evs.map (fun e => (e.1, e.2.2))).map Prod.fst := by
      intro hmem
      simp only [List.map_append, List.map_cons] at hnd
      have := (List.nodup_append.1 hnd).2.2
      exact this hmem (List.mem_cons_self _ _)
    have hstep :
        preStep R (evs.map (fun e => (e.1, e.2.2)) ++ (k, v) :: rest, evs) (k, v) =
          ((evs ++ [(k, v, R.preload k v (evs.map (fun e => (e.1, e.2.2)) ++ (k, v) :: rest))]).map
              (fun e => (e.1, e.2.2)) ++ rest,
            evs ++ [(k, v, R.preload k v (evs.map (fun e => (e.1, e.2.2)) ++ (k, v) :: rest))]) := by
      rw [preStep]
      simp only []
      rw [aupdate_append_not_mem _ _ _ _ hknotin]
      simp only [aupdate, if_pos rfl, List.map_append, List.map_cons, List.map_nil]
      simp
    rw [hstep]
    refine ih _ ?_
    have hkeys :
        ((evs ++ [(k, v, R.preload k v (evs.map (fun e => (e.1, e.2.2)) ++ (k, v) :: rest))]).map
            (fun e => (e.1, e.2.2)) ++ rest).map Prod.fst =
          ((evs.map (fun e => (e.1, e.2.2)) ++ (k, v) :: rest).map Prod.fst) := by
      simp
    rw [hkeys]
    exact hnd

/-- `preloadAll` invokes the hook exactly once per entry, in order, with the
entry's (merged) value as input. -/
theorem preloadAll_inputs {n : Nat} (R : Registry n) (s : Scope n) :
    ((preloadAll R s).2).map (fun e => (e.1, e.2.1)) = s := by
  unfold preloadAll
  rw [preload_go_inputs]
  simp

/-- `preloadAll` replaces each entry's value with the hook's output, keeping
keys and order. -/
theorem preloadAll_scope {n : Nat} (R : Registry n) (s : Scope n)
    (h : (s.map Prod.fst).Nodup) :
    (preloadAll R s).1 = ((preloadAll R s).2).map (fun e => (e.1, e.2.2)) := by
  unfold preloadAll
  have := preload_go_scope R s [] (by simpa using h)
  simpa using this

/-! ### Evaluator lemmas -/

theorem evalArgs_scope {n : Nat}
    (exec : Fin n → Scope n → Option CtxTag → List (Ev n) × Except Err (Value × Scope n))
    (hexec : ∀ i s c v s2, (exec i s c).2 = .ok (v, s2) → s2 = s) (ctxv : CtxTag) :
    ∀ (args : List (Arg n)) (s : Scope n) (vs : List Value) (s2 : Scope n),
      (evalArgs exec ctxv args s).2 = .ok (vs, s2) → s2 = s := by
  intro args
  induction args with
  | nil =>
    intro s vs s2 h
    simp only [evalArgs] at h
    cases h
    rfl
  | cons a rest ih =>
    intro s vs s2 h
    cases a with
    | other o =>
      rw [evalArgs] at h
      exact ih s vs s2 h
    | val v =>
      rw [evalArgs] at h
      simp only [] at h
      cases hr : (evalArgs exec ctxv rest s).2 with
      | ok x =>
        rw [hr] at h
        simp only [Except.map] at h
        cases h
        exact ih s x.1 x.2 hr
      | error e =>
        rw [hr] at h
        simp [Except.map] at h
    | expr i =>
      rw [evalArgs] at h
      cases hx : exec i s (some ctxv) with
      | mk evs res =>
        rw [hx] at h
        cases res with
        | ok p =>
          obtain ⟨v, s1⟩ := p
          simp only [] at h
          cases hr : (evalArgs exec ctxv rest s1).2 with
          | ok x =>
            obtain ⟨vs2, s3⟩ := x
            rw [hr] at h
            simp only [Except.map] at h
            have h0 : s3 = s2 := by
              injection h with hh
              exact congrArg Prod.snd hh
            have h1 : s3 = s1 := ih s1 vs2 s3 hr
            have h2 : s1 = s := hexec i s (some ctxv) v s1 (by rw [hx])
            rw [← h0, h1, h2]
          | error e =>
            rw [hr] at h
            simp [Except.map] at h
        | error e =>
          simp only [] at h
          cases h

theorem generalStep_scope {n : Nat}
    (exec : Fin n → Scope n → Option CtxTag → List (Ev n) × Except Err (Value × Scope n))
    (hexec : ∀ i s c v s2, (exec i s c).2 = .ok (v, s2) → s2 = s)
    (R : Registry n) (g : Graph n) (op : Fin n) (ctxv : CtxTag) :
    ∀ (s : Scope n) (v : Value) (s2 : Scope n),
      (generalStep exec R g op s ctxv).2 = .ok (v, s2) → s2 = s := by
  intro s v s2 h
  rw [generalStep] at h
  cases hr : evalArgs exec ctxv (g.nodes op).args s with
  | mk evs res =>
    rw [hr] at h
    cases res with
    | ok p =>
      obtain ⟨cargs, s3⟩ := p
      simp only [] at h
      cases hn : R.execNode op cargs s3 ctxv with
      | ok w =>
        rw [hn] at h
        simp only [Except.map] at h
        have h0 : s3 = s2 := by
          injection h with hh
          exact congrArg Prod.snd hh
        have h1 : s3 = s := evalArgs_scope exec hexec ctxv _ s cargs s3 (by rw [hr])
        rw [← h0, h1]
      | error e =>
        rw [hn] at h
        simp [Except.map] at h
    | error e =>
      simp only [] at h
      cases h

theorem executeWS_scope {n : Nat} (R : Registry n) (g : Graph n) :
    ∀ (fuel : Nat) (e : Fin n) (s : Scope n) (c : Option CtxTag) (v : Value) (s2 : Scope n),
      (executeWS R g fuel e s c).2 = .ok (v, s2) → s2 = s := by
  intro fuel
  induction fuel with
  | zero =>
    intro e s c v s2 h
    rw [executeWS] at h
    cases hl : alookup s e with
    | some w =>
      rw [hl] at h
      simp only [] at h
      injection h with hh
      exact (congrArg Prod.snd hh).symm
    | none =>
      rw [hl] at h
      simp only [] at h
      cases h
  | succ fuel ih =>
    intro e s c v s2 h
    rw [executeWS] at h
    cases hl : alookup s e with
    | some w =>
      rw [hl] at h
      simp only [] at h
      injection h with hh
      exact (congrArg Prod.snd hh).symm
    | none =>
      rw [hl] at h
      simp only [] at h
      cases hrt : lookupAll s (g.nodes e).rootTables with
      | some rootVals =>
        rw [hrt] at h
        simp only [] at h
        cases hf : R.execFirst e rootVals s (c.getD .summarize) with
        | some r =>
          rw [hf] at h
          simp only [] at h
          cases r with
          | ok w =>
            simp only [Except.map] at h
            injection h with hh
            exact (congrArg Prod.snd hh).symm
          | error e2 =>
            simp [Except.map] at h
        | none =>
          rw [hf] at h
          simp only [] at h
          exact generalStep_scope _ ih R g e _ s v s2 h
      | none =>
        rw [hrt] at h
        simp only [] at h
        exact generalStep_scope _ ih R g e _ s v s2 h

theorem evalArgs_congr {n : Nat}
    (exec1 exec2 : Fin n → Scope n → Option CtxTag → List (Ev n) × Except Err (Value × Scope n))
    (h : ∀ i s c, (exec1 i s c).2 = (exec2 i s c).2) (ctxv : CtxTag) :
    ∀ (args : List (Arg n)) (s : Scope n),
      (evalArgs exec1 ctxv args s).2 = (evalArgs exec2 ctxv args s).2 := by
  intro args
  induction args with
  | nil => intro s; rfl
  | cons a rest ih =>
    intro s
    cases a with
    | other o =>
      rw [evalArgs, evalArgs]
      exact ih s
    | val v =>
      rw [evalArgs, evalArgs]
      simp only []
      rw [ih s]
    | expr i =>
      rw [evalArgs, evalArgs]
      have h2 := h i s (some ctxv)
      cases hx1 : exec1 i s (some ctxv) with
      | mk evs1 res1 =>
        cases hx2 : exec2 i s (some ctxv) with
        | mk evs2 res2 =>
          rw [hx1, hx2] at h2
          simp only [] at h2
          subst h2
          cases res1 with
          | ok p =>
            obtain ⟨v, s1⟩ := p
            simp only []
            rw [ih s1]
          | error e =>
            rfl

theorem generalStep_congr {n : Nat}
    (exec1 exec2 : Fin n → Scope n → Option CtxTag → List (Ev n) × Except Err (Value × Scope n))
    (h : ∀ i s c, (exec1 i s c).2 = (exec2 i s c).2)
    (R : Registry n) (g : Graph n) (op : Fin n) (s : Scope n) (ctxv : CtxTag) :
    (generalStep exec1 R g op s ctxv).2 = (generalStep exec2 R g op s ctxv).2 := by
  rw [generalStep, generalStep]
  have h2 := evalArgs_congr exec1 exec2 h ctxv (g.nodes op).args s
  cases hx1 : evalArgs exec1 ctxv (g.nodes op).args s with
  | mk evs1 res1 =>
    cases hx2 : evalArgs exec2 ctxv (g.nodes op).args s with
    | mk evs2 res2 =>
      rw [hx1, hx2] at h2
      simp only [] at h2
      subst h2
      cases res1 with
      | ok p => rfl
      | error e => rfl

/-- When no fast-path evaluator is registered at all, the scoped evaluator
computes the same result (value, error, and final scope) as the evaluator
with the fast-path step removed. -/
theorem executeWS_eq_noFast {n : Nat} (R : Registry n) (g : Graph n)
    (hnone : ∀ i vs s c, R.execFirst i vs s c = none) :
    ∀ (fuel : Nat) (e : Fin n) (s : Scope n) (c : Option CtxTag),
      (executeWS R g fuel e s c).2 = (executeNoFast R g fuel e s c).2 := by
  intro fuel
  induction fuel with
  | zero =>
    intro e s c
    rw [executeWS, executeNoFast]
  | succ fuel ih =>
    intro e s c
    rw [executeWS, executeNoFast]
    cases hl : alookup s e with
    | some w => rfl
    | none =>
      simp only []
      cases hrt : lookupAll s (g.nodes e).rootTables with
      | some rootVals =>
        simp only []
        rw [hnone e rootVals s (c.getD .summarize)]
        simp only []
        exact generalStep_congr _ _ (fun i s2 c2 => ih i s2 c2) R g e s (c.getD .summarize)
      | none =>
        simp only []
        exact generalStep_congr _ _ (fun i s2 c2 => ih i s2 c2) R g e s (c.getD .summarize)

/-! ### Claim theorems -/

/-- C1: in the top-level entry point, the working Scope is assembled by a
last-write-wins merge with strictly increasing priority: for every node,
the merged binding is the normalized override value when one exists, else
the discovered value, else the explicit pre-seeded value. -/
theorem merge_priority_c1 {n : Nat} (g : Graph n) (expr : Fin n)
    (params : List (PKey n × Value)) (scope0 : Scope n) (k : Fin n)
    (hs : (scope0.map Prod.fst).Nodup) :
    alookup (mergedScope g expr params scope0) k =
      (alookup (normalizeParams params) k).or
        ((alookup (find_data g expr).data k).or (alookup scope0 k)) := by
  unfold mergedScope
  exact mergeScopes_lookup _ _ _ k hs (nodup_keys_find_data g expr)
    (nodup_keys_normalizeParams params)

theorem merge_priority_c1_witness :
    alookup (mergedScope gEx 0 [(.pexpr 3, .int 100)] [((3 : Fin 5), .int 9)]) 3 =
      (alookup (normalizeParams ([(.pexpr 3, .int 100)] : List (PKey 5 × Value))) 3).or
        ((alookup (find_data gEx 0).data 3).or (alookup [((3 : Fin 5), .int 9)] 3)) :=
  merge_priority_c1 gEx 0 [(.pexpr 3, .int 100)] [((3 : Fin 5), .int 9)] 3 (by decide)

/-- C2: when the reachable graph contains zero literal nodes and zero
externally-bound data nodes, the top-level entry point raises
`NoDataBoundError` (the `ValueError` of the source) immediately: the result
is the error with an empty event trace, so no preload hook and no evaluator
was invoked (no partial evaluation). -/
theorem no_data_c2 {n : Nat} (R : Registry n) (g : Graph n) (fuel : Nat) (expr : Fin n)
    (params : Option (List (PKey n × Value))) (scope : Option (Scope n)) (c : Option CtxTag)
    (h : ∀ i, Reachable g expr i → dataValue g i = none) :
    executeWithoutScope R g fuel expr params scope c = ([], .error .noData) := by
  have hdata : (find_data g expr).data = [] := by
    rw [List.eq_nil_iff_forall_not_mem]
    rintro ⟨i, v⟩ hmem
    obtain ⟨hr, hdv⟩ := (mem_find_data g expr i v).1 hmem
    rw [h i hr] at hdv
    cases hdv
  rw [executeWithoutScope]
  simp only [hdata, if_pos]

theorem no_data_c2_witness :
    executeWithoutScope rEmpty gEmpty 5 0 none none none = ([], .error .noData) :=
  no_data_c2 rEmpty gEmpty 5 0 none none none (fun _ _ => rfl)

/-- C3 counterexample: the claim says a second evaluation of the same root
against the same Scope invokes no evaluator.  On the example graph with
every leaf pre-seeded, a call returns the Scope unchanged — so the second
call in sequence is this very same invocation — and its event trace is
nonempty: `execute_first` and `execute_node` are invoked again (the engine
never caches results into Scope). -/
theorem memo_second_call_c3_counterexample :
    (executeWS rEx gEx 9 0 scopeLeaves none).2 = .ok (Value.int 10, scopeLeaves) ∧
    (executeWS rEx gEx 9 0 scopeLeaves none).1 ≠ [] := by decide

/-- C3 (amended): evaluating the root a second time in sequence yields the
same result as the first call — because the evaluator leaves the Scope
unchanged, the second call is an identical invocation — but it repeats the
very same evaluator invocations (same event trace) instead of skipping
them, since results are never cached into Scope. -/
theorem memo_second_call_c3 {n : Nat} (R : Registry n) (g : Graph n) (fuel : Nat)
    (e : Fin n) (s : Scope n) (c : Option CtxTag) (t : List (Ev n)) (v : Value) (s2 : Scope n)
    (h : executeWS R g fuel e s c = (t, .ok (v, s2))) :
    executeWS R g fuel e s2 c = (t, .ok (v, s2)) := by
  have hs : s2 = s := executeWS_scope R g fuel e s c v s2 (by rw [h])
  rw [hs] at h ⊢
  exact h

theorem memo_second_call_c3_witness :
    executeWS rEx gEx 9 0 scopeLeaves none =
      ([.firstTry 0, .firstTry 2, .nodeEval 2, .nodeEval 0], .ok (Value.int 10, scopeLeaves)) :=
  memo_second_call_c3 rEx gEx 9 0 scopeLeaves none _ _ _ (by decide)

/-- C4: (a) per node, when the fast-path attempt cannot apply — some root
table is absent from Scope, or `execute_first` has no evaluator registered
for the (operation, leaf-values) combination — the attempt raises nothing
and the result is that of the general per-argument recursion; (b) when no
fast-path evaluator is registered at all, the final result is identical to
the evaluator with the fast-path step removed. -/
theorem fastpath_fallthrough_c4 {n : Nat} (R : Registry n) (g : Graph n) :
    (∀ (fuel : Nat) (e : Fin n) (s : Scope n) (c : Option CtxTag),
      alookup s e = none →
      (∀ vs, lookupAll s (g.nodes e).rootTables = some vs →
        R.execFirst e vs s (c.getD .summarize) = none) →
      (executeWS R g (fuel + 1) e s c).2 =
        (generalStep (executeWS R g fuel) R g e s (c.getD .summarize)).2) ∧
    ((∀ i vs s c2, R.execFirst i vs s c2 = none) →
      ∀ (fuel : Nat) (e : Fin n) (s : Scope n) (c : Option CtxTag),
        (executeWS R g fuel e s c).2 = (executeNoFast R g fuel e s c).2) := by
  constructor
  · intro fuel e s c hmem hfp
    rw [executeWS, hmem]
    simp only []
    cases hrt : lookupAll s (g.nodes e).rootTables with
    | some vs =>
      simp only []
      rw [hfp vs hrt]
    | none => rfl
  · intro hnone fuel e s c
    exact executeWS_eq_noFast R g hnone fuel e s c

theorem fastpath_fallthrough_c4_witness :
    ((executeWS rEmpty gEmpty 1 0 [] none).2 =
      (generalStep (executeWS rEmpty gEmpty 0) rEmpty gEmpty 0 []
        ((none : Option CtxTag).getD .summarize)).2) ∧
    ((executeWS rEx gEx 9 0 [] none).2 = (executeNoFast rEx gEx 9 0 [] none).2) :=
  ⟨(fastpath_fallthrough_c4 rEmpty gEmpty).1 0 0 [] none (by decide) (fun _ _ => rfl),
   (fastpath_fallthrough_c4 rEx gEx).2 (fun _ _ _ _ => rfl) 9 0 [] none⟩

/-- C5: a node already present in Scope is answered from Scope at once: the
stored value is returned, the Scope is untouched and the event trace is
empty — no fast-path attempt, no argument recursion, no dispatch. -/
theorem memo_hit_c5 {n : Nat} (R : Registry n) (g : Graph n) (fuel : Nat) (e : Fin n)
    (s : Scope n) (c : Option CtxTag) (v : Value) (h : alookup s e = some v) :
    executeWS R g fuel e s c = ([], .ok (v, s)) := by
  cases fuel with
  | zero => rw [executeWS, h]
  | succ fuel2 => rw [executeWS, h]

theorem memo_hit_c5_witness :
    executeWS rEx gEx 0 1 scopeLeaves none = ([], .ok (Value.int 2, scopeLeaves)) :=
  memo_hit_c5 rEx gEx 0 1 scopeLeaves none (Value.int 2) (by decide)

/-- C9: the scoped evaluator never adds, overwrites or removes a Scope
entry: whenever a call returns, the Scope it hands back is the Scope it was
given. -/
theorem scope_readonly_c9 {n : Nat} (R : Registry n) (g : Graph n) (fuel : Nat)
    (e : Fin n) (s : Scope n) (c : Option CtxTag) (v : Value) (s2 : Scope n)
    (h : (executeWS R g fuel e s c).2 = .ok (v, s2)) : s2 = s :=
  executeWS_scope R g fuel e s c v s2 h

theorem scope_readonly_c9_witness : scopeLeaves = scopeLeaves :=
  scope_readonly_c9 rEx gEx 9 0 scopeLeaves none (Value.int 10) scopeLeaves (by decide)

/-- C6: the Graph Walker visits each distinct node exactly once (the visit
list has no duplicates and is exactly the set of nodes reachable from the
root), and its returned mapping contains exactly the source-bound and
literal-valued nodes reachable from the root, each keyed by the node itself
with its resolved value. -/
theorem graph_walker_c6 {n : Nat} (g : Graph n) (root : Fin n) :
    (find_data g root).visits.Nodup ∧
    (∀ i, i ∈ (find_data g root).visits ↔ Reachable g root i) ∧
    (∀ i v, (i, v) ∈ (find_data g root).data ↔ Reachable g root i ∧ dataValue g i = some v) := by
  obtain ⟨h1, h2, _, _⟩ := find_data_spec g root
  exact ⟨h1, h2, fun i v => mem_find_data g root i v⟩

/-- C7 counterexample: on `Add(Literal(2), Add(BoundX, Literal(3)))` with
`BoundX` bound to `5`, the discovery pass returns the mapping in the order
`Literal(2) ↦ 2, BoundX ↦ 5, Literal(3) ↦ 3` (nodes 1, 3, 4), not the
claimed order `Literal(2), Literal(3), BoundX` (nodes 1, 4, 3): DFS
descends into the inner `Add` and meets `BoundX` before `Literal(3)`. -/
theorem dfs_order_c7_counterexample :
    (find_data gEx 0).data = [(1, Value.int 2), (3, Value.int 5), (4, Value.int 3)] ∧
    (find_data gEx 0).data ≠ [(1, Value.int 2), (4, Value.int 3), (3, Value.int 5)] := by
  decide

/-- C7 (amended): on the example graph the top-level execution returns 10,
and the discovery pass returns the ordered mapping
`{Literal(2): 2, BoundX: 5, Literal(3): 3}` — left-to-right DFS order, with
`BoundX` before `Literal(3)`. -/
theorem dfs_order_c7 :
    (executeWithoutScope rEx gEx 9 0 none none none).2 = .ok (Value.int 10) ∧
    (find_data gEx 0).data = [(1, Value.int 2), (3, Value.int 5), (4, Value.int 3)] := by
  decide

/-- C8: the preload hook is invoked exactly once per entry of the merged
Scope, in order, with the entry's final (override-resolved) merged value as
input; each entry's value is replaced by the hook's output; and in the
top-level entry point all preload events happen after the merge and before
any evaluation event. -/
theorem preload_once_c8 {n : Nat} (R : Registry n) (g : Graph n) (expr : Fin n)
    (params : List (PKey n × Value)) (scope0 : Scope n) :
    (((preloadAll R (mergedScope g expr params scope0)).2).map (fun e => (e.1, e.2.1)) =
        mergedScope g expr params scope0) ∧
    ((preloadAll R (mergedScope g expr params scope0)).1 =
        ((preloadAll R (mergedScope g expr params scope0)).2).map (fun e => (e.1, e.2.2))) ∧
    ((find_data g expr).data ≠ [] →
      ∀ (fuel : Nat) (c : Option CtxTag),
        executeWithoutScope R g fuel expr (some params) (some scope0) c =
          (((preloadAll R (mergedScope g expr params scope0)).2).map
              (fun e => Ev.preload e.1 e.2.1 e.2.2) ++
            (executeWS R g fuel expr (preloadAll R (mergedScope g expr params scope0)).1
              (some (c.getD .summarize))).1,
          (executeWS R g fuel expr (preloadAll R (mergedScope g expr params scope0)).1
              (some (c.getD .summarize))).2.map (fun x => x.1))) := by
  refine ⟨preloadAll_inputs R _,
    preloadAll_scope R _ (nodup_keys_mergeScopes _ _ _), ?_⟩
  intro hne fuel c
  rw [executeWithoutScope]
  simp only [if_neg hne, Option.getD_some]

theorem preload_once_c8_witness :
    executeWithoutScope rEx gEx 9 0 (some []) (some []) none =
      (((preloadAll rEx (mergedScope gEx 0 [] [])).2).map
          (fun e => Ev.preload e.1 e.2.1 e.2.2) ++
        (executeWS rEx gEx 9 0 (preloadAll rEx (mergedScope gEx 0 [] [])).1
          (some ((none : Option CtxTag).getD .summarize))).1,
      (executeWS rEx gEx 9 0 (preloadAll rEx (mergedScope gEx 0 [] [])).1
          (some ((none : Option CtxTag).getD .summarize))).2.map (fun x => x.1)) :=
  (preload_once_c8 rEx gEx 0 [] []).2.2 (by decide) 9 none

/-- C10: the Graph Walker terminates on every finite graph — including
graphs with shared sub-expressions and cyclic node references — within the
explicit step bound `fdFuel`: each node enters the seen set at most once
(no duplicate visits, all of them reachable), and the total number of stack
pushes equals the sum of expression-argument counts over the distinct
visited nodes, hence is at most the sum of argument counts over all
distinct reachable nodes. -/
theorem walker_terminates_c10 {n : Nat} (g : Graph n) (root : Fin n) :
    (fdLoop g (fdFuel g [root] ∅) [root] ∅ ⟨[], [], 0⟩).isSome ∧
    (find_data g root).visits.Nodup ∧
    (∀ i ∈ (find_data g root).visits, Reachable g root i) ∧
    (find_data g root).pushes =
      ((find_data g root).visits.map (fun i => (kids g i).length)).sum ∧
    (find_data g root).pushes ≤
      ((find_data g root).visits.map (fun i => (g.nodes i).args.length)).sum := by
  obtain ⟨h1, h2, _, h4⟩ := find_data_spec g root
  refine ⟨fdLoop_isSome g _ _ _ _ (le_refl _), h1, fun i hi => (h2 i).1 hi, h4, ?_⟩
  rw [h4]
  refine List.sum_le_sum ?_
  intro i _
  exact List.length_filterMap_le _ _
